import Mathlib

/-!
Verification of the forecast-data pipeline of the revenue-forecasting
dashboard (src/streamlit.py).

The pipeline stages embedded here, in source order:
  * column normalization (lines 28-35): locate a case/whitespace-insensitive
    "month" column and rename it to "Month", or fail;
  * revenue cleaning (lines 42-44): remove "$" and "," and parse as a number;
  * series regularization (lines 47-49): shift every index date by
    pd.offsets.MonthEnd(-1), drop duplicate index entries keeping the first,
    forward-fill missing revenue values;
  * model caching (lines 54-66): fit the model only when absent from
    session state, reuse it afterwards;
  * forecast assembly (lines 67-71): pd.date_range(start=last, periods=61,
    freq="M")[1:] zipped with the predicted values.

Dates are modelled by an absolute month index (ym = 12 * year + (month - 1))
together with a day of month; revenue values by Option ℚ (None = missing).
-/

/-- A calendar date: `ym` is the absolute month index (12 * year + month - 1),
`day` the day of the month. -/
structure Date where
  ym : Int
  day : Nat
deriving DecidableEq, Repr

/-- Lexicographic (chronological) order on dates. -/
instance : LT Date :=
  ⟨fun a b => a.ym < b.ym ∨ (a.ym = b.ym ∧ a.day < b.day)⟩

instance (a b : Date) : Decidable (a < b) :=
  inferInstanceAs (Decidable (a.ym < b.ym ∨ (a.ym = b.ym ∧ a.day < b.day)))

/-- Gregorian leap-year test. -/
def isLeapYear (y : Int) : Bool :=
  (Int.emod y 4 == 0 && Int.emod y 100 != 0) || Int.emod y 400 == 0

/-- Month of the year (0 = January .. 11 = December) of a month index. -/
def monthOfIndex (m : Int) : Nat := (Int.emod m 12).toNat

/-- Year of a month index. -/
def yearOfIndex (m : Int) : Int := Int.ediv m 12

/-- Number of days of the month with absolute index `m`. -/
def daysInMonth (m : Int) : Nat :=
  if monthOfIndex m = 1 then (if isLeapYear (yearOfIndex m) then 29 else 28)
  else [31, 28, 31, 30, 31, 30, 31, 31, 30, 31, 30, 31].getD (monthOfIndex m) 31

/-- The last day of the month with absolute index `m`. -/
def monthEndDate (m : Int) : Date := ⟨m, daysInMonth m⟩

/-- Build a date from year, month (1-12) and day. -/
def mkDate (y : Int) (mo d : Nat) : Date := ⟨12 * y + ((mo : Int) - 1), d⟩

/-- Adding pd.offsets.MonthEnd(-1): every date moves to the last day of the
previous calendar month (streamlit.py line 47). -/
def monthEndShift (d : Date) : Date := monthEndDate (d.ym - 1)

/-- A date-keyed revenue series row: a date and an optional numeric value. -/
abbrev Row := Date × Option ℚ

/-- Index alignment step (line 47): data.index = data.index + MonthEnd(-1). -/
def alignMonthEnd (s : List Row) : List Row :=
  s.map (fun p => (monthEndShift p.1, p.2))

/-- Worker for duplicate removal: keeps a row only if its key was not seen
before, mirroring index.duplicated(keep="first") of line 48. -/
def dropDupGo (seen : List Date) : List Row → List Row
  | [] => []
  | p :: rest =>
      if p.1 ∈ seen then dropDupGo seen rest
      else p :: dropDupGo (p.1 :: seen) rest

/-- Duplicate-index removal (line 48): data[~data.index.duplicated(keep="first")]. -/
def dropDuplicatesFirst (s : List Row) : List Row := dropDupGo [] s

/-- Worker for forward fill: `x` is the most recent non-missing value seen. -/
def ffillGo (x : Option ℚ) : List Row → List Row
  | [] => []
  | (k, some v) :: rest => (k, some v) :: ffillGo (some v) rest
  | (k, none) :: rest => (k, x) :: ffillGo x rest

/-- Forward fill of missing values (line 49): fillna(method="ffill"). -/
def forwardFill (s : List Row) : List Row := ffillGo none s

/-- The Series Regularizer (lines 47-49): month-end alignment, then
deduplication, then forward fill. -/
def regularizeSeries (s : List Row) : List Row :=
  forwardFill (dropDuplicatesFirst (alignMonthEnd s))

example : regularizeSeries [(mkDate 2020 3 15, some (5 : ℚ))]
    = [(mkDate 2020 2 29, some (5 : ℚ))] := by decide

example : regularizeSeries [(mkDate 2020 1 31, some (100 : ℚ)), (mkDate 2020 1 31, some (200 : ℚ))]
    = [(mkDate 2019 12 31, some (100 : ℚ))] := by decide

deriving instance DecidableEq for Except

/-- Python str.strip on a string: drop whitespace from both ends. -/
def pyStrip (s : String) : String :=
  String.mk (((s.data.dropWhile Char.isWhitespace).reverse.dropWhile Char.isWhitespace).reverse)

/-- Python str.lower on a string: lowercase every character. -/
def pyLower (s : String) : String := String.mk (s.data.map Char.toLower)

/-- The Column Normalizer (streamlit.py lines 28-35): if a column named
"Month" exists the table passes through; otherwise the first column whose
stripped lowercase name is "month" is renamed to "Month"; with none the
pipeline fails (st.error + st.stop). Columns are modelled by their names. -/
def normalizeColumns (cols : List String) : Except String (List String) :=
  if "Month" ∈ cols then .ok cols
  else
    match cols.find? (fun c => pyLower (pyStrip c) == "month") with
    | some col => .ok (cols.map (fun c => if c = col then "Month" else c))
    | none => .error "MissingColumnError"

example : normalizeColumns ["  MONTH ", " Revenue "] = .ok ["Month", " Revenue "] := by decide
example : normalizeColumns ["Date", " Revenue "] = .error "MissingColumnError" := by decide

/-- Removal of the literal characters "$" and "," performed by
replace on the revenue column (streamlit.py lines 42-43). -/
def stripCurrency (s : String) : String :=
  String.mk (s.data.filter (fun c => !(c == '$' || c == ',')))

/-- Digit run to natural number. -/
def digitsToNat (cs : List Char) : Nat :=
  cs.foldl (fun a c => a * 10 + (c.toNat - 48)) 0

/-- Unsigned decimal tail of a float literal: digits, optionally followed by
a point and more digits; at least one digit overall. -/
def parseUnsigned (cs : List Char) : Option ℚ :=
  match cs.dropWhile Char.isDigit with
  | [] => if cs.isEmpty then none else some (digitsToNat cs)
  | '.' :: fp =>
      if fp.all Char.isDigit && (!(cs.takeWhile Char.isDigit).isEmpty || !fp.isEmpty)
      then some ((digitsToNat (cs.takeWhile Char.isDigit) : ℚ)
            + (digitsToNat fp : ℚ) / (10 : ℚ) ^ fp.length)
      else none
  | _ => none

/-- Python float(str): optional surrounding whitespace, optional sign, then
an unsigned decimal literal. Failure models the ValueError raised by
astype(float) (a NumericParseError in the spec taxonomy). -/
def pyFloat (s : String) : Except String ℚ :=
  let cs := (pyStrip s).data
  let parsed :=
    match cs with
    | '-' :: rest => (parseUnsigned rest).map (fun q => -q)
    | '+' :: rest => parseUnsigned rest
    | _ => parseUnsigned cs
  match parsed with
  | some q => .ok q
  | none => .error "NumericParseError"

/-- Revenue-cell cleaning (streamlit.py lines 42-44): remove "$" and ",",
then coerce to a number. -/
def cleanRevenueCell (s : String) : Except String ℚ :=
  pyFloat (stripCurrency s)

example : cleanRevenueCell "$12,345.67" = .ok (12345.67 : ℚ) := by with_unfolding_all rfl
example : cleanRevenueCell "1000" = .ok (1000 : ℚ) := by with_unfolding_all rfl
example : cleanRevenueCell "abc" = .error "NumericParseError" := by decide

/-- Month-end date range, pd.date_range(start, periods, freq="M"): `periods`
consecutive month-ends beginning with the month-end of the month of `start`
(streamlit.py line 68). -/
def monthEndRange (start : Date) (periods : Nat) : List Date :=
  (List.range periods).map (fun i : Nat => monthEndDate (start.ym + (i : Int)))

/-- The forecast index (lines 68-70): 61 month-ends starting at the last
historical date, with the first entry dropped. -/
def forecastIndex (lastDate : Date) (n : Nat) : List Date :=
  (monthEndRange lastDate (n + 1)).drop 1

/-- The Forecast Assembler (line 71): pd.Series(values, index) pairs the
predicted values with the forecast index; pandas raises when the lengths
differ (a LengthMismatchError in the spec taxonomy). -/
def assembleForecast (preds : List ℚ) (lastDate : Date) (n : Nat) :
    Except String (List (Date × ℚ)) :=
  if preds.length = (forecastIndex lastDate n).length
  then .ok ((forecastIndex lastDate n).zip preds)
  else .error "LengthMismatchError"

example : forecastIndex (mkDate 2020 1 31) 3
    = [mkDate 2020 2 29, mkDate 2020 3 31, mkDate 2020 4 30] := by decide

/-- One rerun of the script body for the model cache (lines 54-66): when the
session state holds no model, fit one and store it; return the model used,
the new state, and how many times fit ran. -/
def ensureModelFitted {Model : Type} (fit : Unit → Model) :
    Option Model → Model × Option Model × Nat
  | some m => (m, some m, 0)
  | none => let m := fit (); (m, some m, 1)

/-- A session of `n` consecutive reruns against one session state: returns
the final state, the total number of fit invocations, and the model each
rerun used for prediction, in order. -/
def runSession {Model : Type} (fit : Unit → Model) :
    Nat → Option Model → Option Model × Nat × List Model
  | 0, st => (st, 0, [])
  | n + 1, st =>
      let r := ensureModelFitted fit st
      let rest := runSession fit n r.2.1
      (rest.1, r.2.2 + rest.2.1, r.1 :: rest.2.2)


/-- Most recent non-missing value of a series, starting from `x`. -/
def lastObservedFrom (x : Option ℚ) (l : List Row) : Option ℚ :=
  l.foldl (fun acc p => match p.2 with | some v => some v | none => acc) x

/-- Most recent non-missing value of a series. -/
def lastObserved (l : List Row) : Option ℚ := lastObservedFrom none l

theorem ffillGo_map_fst (l : List Row) : ∀ x, (ffillGo x l).map Prod.fst = l.map Prod.fst := by
  induction l with
  | nil => intro x; rfl
  | cons p rest ih =>
      intro x
      obtain ⟨k, v⟩ := p
      cases v <;> simp [ffillGo, ih]

theorem ffillGo_cons_self (x : Option ℚ) (k : Date) (l : List Row) :
    ffillGo x ((k, x) :: l) = (k, x) :: ffillGo x l := by
  cases x <;> rfl

theorem ffillGo_idem (l : List Row) : ∀ x, ffillGo x (ffillGo x l) = ffillGo x l := by
  induction l with
  | nil => intro x; rfl
  | cons p rest ih =>
      intro x
      obtain ⟨k, v⟩ := p
      cases v with
      | some a => simp [ffillGo, ih]
      | none => rw [ffillGo, ffillGo_cons_self, ih]

theorem ffillGo_map_key (f : Date → Date) (l : List Row) :
    ∀ x, ffillGo x (l.map (fun p => (f p.1, p.2))) = (ffillGo x l).map (fun p => (f p.1, p.2)) := by
  induction l with
  | nil => intro x; rfl
  | cons p rest ih =>
      intro x
      obtain ⟨k, v⟩ := p
      cases v <;> simp [ffillGo, ih]

theorem ffillGo_all_isSome (l : List Row) :
    ∀ x : Option ℚ, x.isSome → ∀ p ∈ ffillGo x l, p.2.isSome := by
  induction l with
  | nil => intro x _ p hp; simp [ffillGo] at hp
  | cons q rest ih =>
      intro x hx p hp
      obtain ⟨k, v⟩ := q
      cases v with
      | some a =>
          simp only [ffillGo, List.mem_cons] at hp
          rcases hp with h | h
          · simp [h]
          · exact ih (some a) rfl p h
      | none =>
          simp only [ffillGo, List.mem_cons] at hp
          rcases hp with h | h
          · simpa [h] using hx
          · exact ih x hx p h

theorem ffillGo_getElem? (l : List Row) :
    ∀ (x : Option ℚ) (i : Nat),
      (ffillGo x l)[i]? =
        (l[i]?).map (fun p => (p.1, p.2.elim (lastObservedFrom x (l.take i)) some)) := by
  induction l with
  | nil => intro x i; rfl
  | cons q rest ih =>
      intro x i
      obtain ⟨k, v⟩ := q
      cases v with
      | some a =>
          cases i with
          | zero => simp [ffillGo]
          | succ j => simpa [ffillGo, lastObservedFrom] using ih (some a) j
      | none =>
          cases i with
          | zero => cases x <;> simp [ffillGo, lastObservedFrom]
          | succ j =>
              cases x with
              | some b => simpa [ffillGo, lastObservedFrom] using ih (some b) j
              | none => simpa [ffillGo, lastObservedFrom] using ih none j

theorem dropDupGo_sublist (l : List Row) : ∀ seen, (dropDupGo seen l).Sublist l := by
  induction l with
  | nil => intro seen; exact List.Sublist.refl []
  | cons p rest ih =>
      intro seen
      by_cases h : p.1 ∈ seen
      · simpa [dropDupGo, h] using (ih seen).cons p
      · simpa [dropDupGo, h] using (ih (p.1 :: seen)).cons₂ p

theorem mem_dropDupGo (l : List Row) :
    ∀ seen p, p ∈ dropDupGo seen l → p ∈ l ∧ p.1 ∉ seen := by
  induction l with
  | nil => intro seen p hp; simp [dropDupGo] at hp
  | cons q rest ih =>
      intro seen p hp
      by_cases h : q.1 ∈ seen
      · simp only [dropDupGo, if_pos h] at hp
        obtain ⟨h1, h2⟩ := ih seen p hp
        exact ⟨List.mem_cons_of_mem _ h1, h2⟩
      · simp only [dropDupGo, if_neg h, List.mem_cons] at hp
        rcases hp with rfl | hp
        · exact ⟨List.mem_cons_self _ _, h⟩
        · obtain ⟨h1, h2⟩ := ih (q.1 :: seen) p hp
          refine ⟨List.mem_cons_of_mem _ h1, fun hs => h2 (List.mem_cons_of_mem _ hs)⟩

theorem dropDupGo_pairwise (l : List Row) :
    ∀ seen, List.Pairwise (fun a b : Row => a.1 ≠ b.1) (dropDupGo seen l) := by
  induction l with
  | nil => intro seen; simp [dropDupGo]
  | cons q rest ih =>
      intro seen
      by_cases h : q.1 ∈ seen
      · simpa [dropDupGo, h] using ih seen
      · simp only [dropDupGo, if_neg h]
        refine List.Pairwise.cons ?_ (ih (q.1 :: seen))
        intro p hp hq
        exact (mem_dropDupGo rest (q.1 :: seen) p hp).2 (hq ▸ List.mem_cons_self _ _)

theorem dropDupGo_eq_self (l : List Row) :
    ∀ seen, (∀ p ∈ l, p.1 ∉ seen) →
      List.Pairwise (fun a b : Row => a.1 ≠ b.1) l → dropDupGo seen l = l := by
  induction l with
  | nil => intro seen _ _; rfl
  | cons q rest ih =>
      intro seen hseen hpw
      have hq : q.1 ∉ seen := hseen q (List.mem_cons_self _ _)
      simp only [dropDupGo, if_neg hq]
      refine congrArg (q :: ·) (ih (q.1 :: seen) ?_ hpw.of_cons)
      intro p hp
      simp only [List.mem_cons]
      rintro (h | h)
      · exact (List.rel_of_pairwise_cons hpw hp) h.symm
      · exact hseen p (List.mem_cons_of_mem _ hp) h

theorem dropDupGo_filter (l : List Row) (k : Date) :
    ∀ seen, (dropDupGo seen l).filter (fun p => decide (p.1 = k)) =
      if k ∈ seen then [] else (l.filter (fun p => decide (p.1 = k))).take 1 := by
  induction l with
  | nil => intro seen; by_cases h : k ∈ seen <;> simp [dropDupGo, h]
  | cons q rest ih =>
      intro seen
      by_cases hq : q.1 ∈ seen
      · rw [dropDupGo, if_pos hq, ih seen]
        by_cases hk : k ∈ seen
        · simp [hk]
        · have hne : ¬(q.1 = k) := fun h => hk (h ▸ hq)
          simp [hk, List.filter_cons, hne]
      · rw [dropDupGo, if_neg hq]
        by_cases hqk : q.1 = k
        · have hk : k ∉ seen := fun h => hq (hqk ▸ h)
          have hmem : k ∈ q.1 :: seen := List.mem_cons.mpr (Or.inl hqk.symm)
          rw [List.filter_cons, List.filter_cons, ih (q.1 :: seen), if_pos hmem, if_neg hk]
          simp [hqk]
        · have hne : ¬(k = q.1) := fun h => hqk h.symm
          rw [List.filter_cons, List.filter_cons, ih (q.1 :: seen)]
          have hiff : (k ∈ q.1 :: seen) ↔ (k ∈ seen) := by simp [List.mem_cons, hne]
          by_cases hk : k ∈ seen
          · rw [if_pos (hiff.mpr hk), if_pos hk]
            simp [hqk]
          · rw [if_neg (fun h => hk (hiff.mp h)), if_neg hk]
            simp [hqk]

theorem monthEndDate_ym (m : Int) : (monthEndDate m).ym = m := rfl

theorem regularize_map_fst (s : List Row) :
    (regularizeSeries s).map Prod.fst
      = (dropDuplicatesFirst (alignMonthEnd s)).map Prod.fst :=
  ffillGo_map_fst _ none

theorem regularize_key_pairwise (s : List Row) :
    List.Pairwise (fun a b : Row => a.1 ≠ b.1) (regularizeSeries s) := by
  have h2 : List.Pairwise (fun a b : Date => a ≠ b) ((regularizeSeries s).map Prod.fst) := by
    rw [regularize_map_fst, List.pairwise_map]
    exact dropDupGo_pairwise (alignMonthEnd s) []
  exact List.pairwise_map.mp h2

theorem regularize_key_monthEnd (s : List Row) :
    ∀ p ∈ regularizeSeries s, ∃ m : Int, p.1 = monthEndDate m := by
  intro p hp
  have hkeys : p.1 ∈ (regularizeSeries s).map Prod.fst := List.mem_map_of_mem _ hp
  rw [regularize_map_fst] at hkeys
  obtain ⟨q, hq, hqe⟩ := List.mem_map.mp hkeys
  obtain ⟨hq1, _⟩ := mem_dropDupGo _ _ _ hq
  simp only [alignMonthEnd, List.mem_map] at hq1
  obtain ⟨r, _, hre⟩ := hq1
  exact ⟨r.1.ym - 1, by rw [← hqe, ← hre]; rfl⟩

theorem ffill_regularize (s : List Row) :
    ffillGo none (regularizeSeries s) = regularizeSeries s :=
  ffillGo_idem _ none

theorem regularize_twice_eq (s : List Row) :
    regularizeSeries (regularizeSeries s)
      = (regularizeSeries s).map (fun p => (monthEndShift p.1, p.2)) := by
  have hpair : List.Pairwise (fun a b : Row => a.1 ≠ b.1)
      (alignMonthEnd (regularizeSeries s)) := by
    simp only [alignMonthEnd]
    rw [List.pairwise_map]
    refine List.Pairwise.imp_of_mem ?_ (regularize_key_pairwise s)
    intro a b ha hb hne heq
    obtain ⟨ma, hma⟩ := regularize_key_monthEnd s a ha
    obtain ⟨mb, hmb⟩ := regularize_key_monthEnd s b hb
    have h1 : a.1.ym = b.1.ym := by
      have h2 := congrArg Date.ym heq
      simp only [monthEndShift, monthEndDate_ym] at h2
      omega
    refine hne ?_
    rw [hma, hmb] at h1 ⊢
    simp only [monthEndDate_ym] at h1
    rw [h1]
  calc regularizeSeries (regularizeSeries s)
      = ffillGo none (dropDupGo [] (alignMonthEnd (regularizeSeries s))) := rfl
    _ = ffillGo none (alignMonthEnd (regularizeSeries s)) := by
          rw [dropDupGo_eq_self _ [] (by simp) hpair]
    _ = ffillGo none ((regularizeSeries s).map (fun p => (monthEndShift p.1, p.2))) := rfl
    _ = (ffillGo none (regularizeSeries s)).map (fun p => (monthEndShift p.1, p.2)) :=
          ffillGo_map_key monthEndShift _ none
    _ = (regularizeSeries s).map (fun p => (monthEndShift p.1, p.2)) := by
          rw [ffill_regularize]

/-- The CanonicalSeries invariant (spec section 3): strictly increasing date
index, at most one entry per calendar month, no month gaps, and no missing
revenue values. -/
def CanonicalInvariant (s : List Row) : Prop :=
  List.Chain' (fun a b : Row => a.1 < b.1) s ∧
  List.Pairwise (fun a b : Row => a.1.ym ≠ b.1.ym) s ∧
  List.Chain' (fun a b : Row => b.1.ym = a.1.ym + 1) s ∧
  ∀ p ∈ s, p.2.isSome = true

instance (s : List Row) : Decidable (CanonicalInvariant s) :=
  inferInstanceAs (Decidable
    (List.Chain' (fun a b : Row => a.1 < b.1) s ∧
     List.Pairwise (fun a b : Row => a.1.ym ≠ b.1.ym) s ∧
     List.Chain' (fun a b : Row => b.1.ym = a.1.ym + 1) s ∧
     ∀ p ∈ s, p.2.isSome = true))

/-- Presence of the first revenue value of a series. -/
def headValuePresent (s : List Row) : Bool :=
  match s with
  | [] => true
  | p :: _ => p.2.isSome

theorem chain_succ_pairwise_lt (l : List Row)
    (h : List.Chain' (fun a b : Row => b.1.ym = a.1.ym + 1) l) :
    List.Pairwise (fun a b : Row => a.1.ym < b.1.ym) l := by
  have h2 : List.Chain' (fun a b : Int => a < b) (l.map (fun p : Row => p.1.ym)) := by
    rw [List.chain'_map]
    exact List.Chain'.imp (fun a b hab => by omega) h
  have h3 := List.chain'_iff_pairwise.mp h2
  rw [List.pairwise_map] at h3
  exact h3

theorem align_chain_succ (s : List Row)
    (hc : List.Chain' (fun a b : Row => b.1.ym = a.1.ym + 1) s) :
    List.Chain' (fun a b : Row => b.1.ym = a.1.ym + 1) (alignMonthEnd s) := by
  simp only [alignMonthEnd]
  rw [List.chain'_map]
  refine List.Chain'.imp ?_ hc
  intro a b hab
  simp only [monthEndShift, monthEndDate_ym]
  omega

theorem chain_ym_of_map_fst_eq {l₁ l₂ : List Row}
    (h : l₁.map Prod.fst = l₂.map Prod.fst)
    (hc : List.Chain' (fun a b : Row => b.1.ym = a.1.ym + 1) l₁) :
    List.Chain' (fun a b : Row => b.1.ym = a.1.ym + 1) l₂ := by
  have h1 : List.Chain' (fun a b : Int => b = a + 1) (l₁.map (fun p : Row => p.1.ym)) := by
    rw [List.chain'_map]; exact hc
  have hmaps : l₁.map (fun p : Row => p.1.ym) = l₂.map (fun p : Row => p.1.ym) := by
    have h2 := congrArg (List.map Date.ym) h
    simpa [List.map_map] using h2
  rw [hmaps, List.chain'_map] at h1
  exact h1

theorem regularize_eq_ffill_align (s : List Row)
    (hc : List.Chain' (fun a b : Row => b.1.ym = a.1.ym + 1) s) :
    regularizeSeries s = ffillGo none (alignMonthEnd s) := by
  have hpw : List.Pairwise (fun a b : Row => a.1 ≠ b.1) (alignMonthEnd s) := by
    refine List.Pairwise.imp ?_ (chain_succ_pairwise_lt _ (align_chain_succ s hc))
    intro a b hlt he
    rw [he] at hlt
    omega
  have hded : dropDupGo [] (alignMonthEnd s) = alignMonthEnd s :=
    dropDupGo_eq_self _ [] (by simp) hpw
  show ffillGo none (dropDupGo [] (alignMonthEnd s)) = _
  rw [hded]

theorem ffill_align_values_some (s : List Row) (hv : headValuePresent s = true) :
    ∀ p ∈ ffillGo none (alignMonthEnd s), p.2.isSome = true := by
  cases s with
  | nil => intro p hp; simp [alignMonthEnd, ffillGo] at hp
  | cons q rest =>
      obtain ⟨k, v⟩ := q
      cases v with
      | none => simp [headValuePresent] at hv
      | some a =>
          intro p hp
          simp only [alignMonthEnd, List.map_cons, ffillGo, List.mem_cons] at hp
          rcases hp with rfl | hp
          · rfl
          · exact ffillGo_all_isSome _ (some a) rfl p hp

/-- Claim C1, counterexample: the regularizer does not sort its input, so an
input whose dates are out of chronological order yields an output whose
index is not strictly increasing, violating the CanonicalSeries invariant. -/
theorem regularizeSeries_unordered_counterexample :
    ¬ CanonicalInvariant (regularizeSeries
      [(mkDate 2020 3 15, some (1 : ℚ)), (mkDate 2020 1 15, some (2 : ℚ))]) := by
  intro h
  obtain ⟨h1, -, -, -⟩ := h
  rw [show regularizeSeries
        [(mkDate 2020 3 15, some (1 : ℚ)), (mkDate 2020 1 15, some (2 : ℚ))]
      = [(mkDate 2020 2 29, some (1 : ℚ)), (mkDate 2019 12 31, some (2 : ℚ))] from by decide,
    List.chain'_cons] at h1
  exact absurd h1.1 (by decide)

/-- Claim C1 (amended): for every input series whose rows are in
chronological order with consecutive calendar months (at most one row per
month, no skipped months) and whose first revenue value is present, the
output of the Series Regularizer (month-end alignment, then deduplication,
then forward fill) satisfies the CanonicalSeries invariant: strictly
increasing index, at most one entry per calendar month, no month gaps, no
missing revenue values. -/
theorem regularizeSeries_canonical_of_consecutive (s : List Row)
    (hc : List.Chain' (fun a b : Row => b.1.ym = a.1.ym + 1) s)
    (hv : headValuePresent s = true) :
    CanonicalInvariant (regularizeSeries s) := by
  rw [regularize_eq_ffill_align s hc]
  have hkeys : (ffillGo none (alignMonthEnd s)).map Prod.fst
      = (alignMonthEnd s).map Prod.fst := ffillGo_map_fst _ none
  have hchain : List.Chain' (fun a b : Row => b.1.ym = a.1.ym + 1)
      (ffillGo none (alignMonthEnd s)) :=
    chain_ym_of_map_fst_eq hkeys.symm (align_chain_succ s hc)
  refine ⟨?_, ?_, hchain, ffill_align_values_some s hv⟩
  · exact List.Chain'.imp (fun a b hab => Or.inl (by omega)) hchain
  · exact List.Pairwise.imp (fun hlt => by omega) (chain_succ_pairwise_lt _ hchain)

/-- Witness for the amended claim C1 at a concrete two-month series. -/
theorem regularizeSeries_canonical_of_consecutive_witness :
    CanonicalInvariant (regularizeSeries
      [(mkDate 2020 1 15, some (3 : ℚ)), (mkDate 2020 2 10, some (4 : ℚ))]) :=
  regularizeSeries_canonical_of_consecutive _
    (by rw [List.chain'_cons]; exact ⟨by decide, List.chain'_singleton _⟩) (by decide)

/-- Claim C2, counterexample: the Series Regularizer is not idempotent; on an
already-regularized one-row series the month-end alignment step moves the
(already month-end) date back one further month, so a second application
changes the series. -/
theorem regularizeSeries_not_idempotent :
    regularizeSeries (regularizeSeries [(mkDate 2020 3 15, some (5 : ℚ))])
      ≠ regularizeSeries [(mkDate 2020 3 15, some (5 : ℚ))] := by
  decide

/-- Claim C2 (amended): applying the Series Regularizer to its own output
performs no further deduplication and no further filling, but the month-end
alignment step is not a fixed point: it shifts every already-aligned date
back one more month, so the second application equals the first followed by
a one-month backward shift of the whole index. -/
theorem regularizeSeries_twice_shifts_index (s : List Row) :
    regularizeSeries (regularizeSeries s)
      = (regularizeSeries s).map (fun p => (monthEndShift p.1, p.2)) :=
  regularize_twice_eq s

theorem map_rename_not_mem (cols : List String) (col t : String) (h : col ∉ cols) :
    cols.map (fun c => if c = col then t else c) = cols := by
  induction cols with
  | nil => rfl
  | cons c rest ih =>
      simp only [List.mem_cons, not_or] at h
      rw [List.map_cons, if_neg (fun he => h.1 he.symm), ih h.2]

theorem map_rename_exists_set (cols : List String) (col t : String)
    (hnd : cols.Nodup) (hmem : col ∈ cols) :
    ∃ j, j < cols.length ∧ cols.map (fun c => if c = col then t else c) = cols.set j t := by
  induction cols with
  | nil => cases hmem
  | cons c rest ih =>
      by_cases hc : c = col
      · subst hc
        refine ⟨0, Nat.succ_pos _, ?_⟩
        rw [List.map_cons, if_pos rfl,
          map_rename_not_mem rest c t (List.nodup_cons.mp hnd).1]
        rfl
      · have hmem' : col ∈ rest := by
          rcases List.mem_cons.mp hmem with h | h
          · exact absurd h.symm hc
          · exact h
        obtain ⟨j, hj, he⟩ := ih (List.nodup_cons.mp hnd).2 hmem'
        refine ⟨j + 1, Nat.succ_lt_succ hj, ?_⟩
        rw [List.map_cons, if_neg hc, he]
        rfl

theorem exists_set_self (cols : List String) (hM : "Month" ∈ cols) :
    ∃ j, j < cols.length ∧ cols.set j "Month" = cols := by
  induction cols with
  | nil => cases hM
  | cons c rest ih =>
      rcases List.mem_cons.mp hM with h | h
      · exact ⟨0, Nat.succ_pos _, by rw [← h]; rfl⟩
      · obtain ⟨j, hj, he⟩ := ih h
        exact ⟨j + 1, Nat.succ_lt_succ hj, by rw [List.set_cons_succ, he]⟩

/-- Claim C4: for every table (its columns a duplicate-free name list, per the
RawTable data model) containing a column whose stripped lowercase name is
"month", the Column Normalizer succeeds, and its output is the input with
exactly one position overwritten by the name "Month": all other columns keep
their names and relative order. -/
theorem normalizeColumns_renames_month (cols : List String)
    (hnd : cols.Nodup)
    (hex : ∃ c ∈ cols, pyLower (pyStrip c) = "month") :
    ∃ j, j < cols.length ∧ normalizeColumns cols = .ok (cols.set j "Month") := by
  by_cases hM : "Month" ∈ cols
  · obtain ⟨j, hj, he⟩ := exists_set_self cols hM
    exact ⟨j, hj, by rw [normalizeColumns, if_pos hM, he]⟩
  · have hfind : (cols.find? (fun c => pyLower (pyStrip c) == "month")).isSome := by
      rw [List.find?_isSome]
      obtain ⟨c, hc, hcp⟩ := hex
      exact ⟨c, hc, by rw [hcp]; rfl⟩
    obtain ⟨col, hcol⟩ := Option.isSome_iff_exists.mp hfind
    have hmem : col ∈ cols := List.mem_of_find?_eq_some hcol
    obtain ⟨j, hj, he⟩ := map_rename_exists_set cols col "Month" hnd hmem
    refine ⟨j, hj, ?_⟩
    rw [normalizeColumns, if_neg hM, hcol]
    exact congrArg Except.ok he

/-- Witness for claim C4 on the reference header row. -/
theorem normalizeColumns_renames_month_witness :
    ∃ j, j < (["  MONTH ", " Revenue "] : List String).length ∧
      normalizeColumns ["  MONTH ", " Revenue "]
        = .ok ((["  MONTH ", " Revenue "] : List String).set j "Month") :=
  normalizeColumns_renames_month _ (by decide) ⟨"  MONTH ", by decide, by decide⟩

/-- Claim C5: for every table with no column whose stripped lowercase name is
"month", the Column Normalizer fails with MissingColumnError, and any
downstream pipeline stage sequenced after it never runs: the composite
pipeline produces the same error and no partial output. -/
theorem normalizeColumns_missing_halts (cols : List String)
    (h : ∀ c ∈ cols, pyLower (pyStrip c) ≠ "month")
    {α : Type} (f : List String → Except String α) :
    (normalizeColumns cols).bind f = .error "MissingColumnError" := by
  have hM : "Month" ∉ cols := fun hmem => h "Month" hmem (by decide)
  have hfind : cols.find? (fun c => pyLower (pyStrip c) == "month") = none := by
    rw [List.find?_eq_none]
    intro c hc
    simp only [beq_iff_eq]
    exact h c hc
  rw [normalizeColumns, if_neg hM, hfind]
  rfl

/-- Witness for claim C5 on a table with only non-month columns. -/
theorem normalizeColumns_missing_halts_witness :
    (normalizeColumns ["Date", " Revenue "]).bind (fun t => Except.ok t)
      = Except.error "MissingColumnError" :=
  normalizeColumns_missing_halts _ (by decide) _

theorem monthEndDate_lt_monthEndDate {a b : Int} (h : a < b) :
    monthEndDate a < monthEndDate b :=
  Or.inl h

theorem forecastIndex_monthEnd (m : Int) (n : Nat) :
    forecastIndex (monthEndDate m) n
      = (List.range n).map (fun i : Nat => monthEndDate (m + 1 + (i : Int))) := by
  simp only [forecastIndex, monthEndRange, List.range_succ_eq_map, List.map_cons,
    List.drop_succ_cons, List.drop_zero, List.map_map]
  refine List.map_congr_left ?_
  intro i hi
  simp only [Function.comp_apply, monthEndDate_ym]
  congr 1
  omega

/-- Claim C3: for the fixed horizon 60 and a month-end last historical date,
the Forecast Assembler pairs the 60 predicted values positionally with 60
strictly increasing month-end dates, all strictly after the last historical
date and starting at the next month-end; with any other number of predicted
values it fails with LengthMismatchError. -/
theorem assembleForecast_spec (preds : List ℚ) (m : Int) (h : preds.length = 60) :
    assembleForecast preds (monthEndDate m) 60
        = .ok (((List.range 60).map (fun i : Nat => monthEndDate (m + 1 + (i : Int)))).zip preds) ∧
    ((List.range 60).map (fun i : Nat => monthEndDate (m + 1 + (i : Int)))).length = 60 ∧
    List.Chain' (fun a b : Date => a < b)
      ((List.range 60).map (fun i : Nat => monthEndDate (m + 1 + (i : Int)))) ∧
    (∀ d ∈ (List.range 60).map (fun i : Nat => monthEndDate (m + 1 + (i : Int))), monthEndDate m < d) ∧
    ((List.range 60).map (fun i : Nat => monthEndDate (m + 1 + (i : Int)))).head?
        = some (monthEndDate (m + 1)) ∧
    (∀ preds2 : List ℚ, preds2.length ≠ 60 →
      assembleForecast preds2 (monthEndDate m) 60 = .error "LengthMismatchError") := by
  have hidx := forecastIndex_monthEnd m 60
  have hlen : ((List.range 60).map (fun i : Nat => monthEndDate (m + 1 + (i : Int)))).length = 60 := by
    simp
  refine ⟨?_, hlen, ?_, ?_, ?_, ?_⟩
  · rw [assembleForecast, hidx, if_pos (by rw [h, hlen])]
  · have hpw : List.Pairwise (fun a b : Date => a < b)
        ((List.range 60).map (fun i : Nat => monthEndDate (m + 1 + (i : Int)))) := by
      rw [List.pairwise_map]
      refine List.Pairwise.imp ?_ (List.pairwise_lt_range 60)
      intro i j hij
      exact monthEndDate_lt_monthEndDate (by omega)
    exact hpw.chain'
  · intro d hd
    obtain ⟨i, hi, rfl⟩ := List.mem_map.mp hd
    exact monthEndDate_lt_monthEndDate (by omega)
  · rw [List.head?_map, show (List.range 60).head? = some 0 from rfl]
    simp
  · intro preds2 h2
    rw [assembleForecast, hidx, if_neg (fun he => h2 (he.trans hlen))]

/-- Witness for claim C3 with sixty constant predictions. -/
theorem assembleForecast_spec_witness :
    assembleForecast (List.replicate 60 (7 : ℚ)) (monthEndDate 600) 60
        = .ok (((List.range 60).map (fun i : Nat => monthEndDate (600 + 1 + (i : Int)))).zip
            (List.replicate 60 (7 : ℚ))) ∧
    ((List.range 60).map (fun i : Nat => monthEndDate (600 + 1 + (i : Int)))).length = 60 ∧
    List.Chain' (fun a b : Date => a < b)
      ((List.range 60).map (fun i : Nat => monthEndDate (600 + 1 + (i : Int)))) ∧
    (∀ d ∈ (List.range 60).map (fun i : Nat => monthEndDate (600 + 1 + (i : Int))), monthEndDate 600 < d) ∧
    ((List.range 60).map (fun i : Nat => monthEndDate (600 + 1 + (i : Int)))).head?
        = some (monthEndDate (600 + 1)) ∧
    (∀ preds2 : List ℚ, preds2.length ≠ 60 →
      assembleForecast preds2 (monthEndDate 600) 60 = .error "LengthMismatchError") :=
  assembleForecast_spec (List.replicate 60 (7 : ℚ)) 600 (List.length_replicate 60 _)

/-- Claim C6: the gap-fill step keeps every key and every present value
unchanged, and replaces a missing value by the most recent prior non-missing
value (so a missing first value stays missing); in particular
[Jan=100, Feb=missing, Mar=150] becomes [Jan=100, Feb=100, Mar=150]. -/
theorem forwardFill_spec :
    (∀ (l : List Row) (i : Nat),
      (forwardFill l)[i]? =
        (l[i]?).map (fun p => (p.1, p.2.elim (lastObserved (l.take i)) some))) ∧
    forwardFill [(mkDate 2020 1 31, some (100 : ℚ)), (mkDate 2020 2 29, none),
        (mkDate 2020 3 31, some (150 : ℚ))]
      = [(mkDate 2020 1 31, some (100 : ℚ)), (mkDate 2020 2 29, some (100 : ℚ)),
        (mkDate 2020 3 31, some (150 : ℚ))] := by
  constructor
  · intro l i
    exact ffillGo_getElem? l none i
  · decide

/-- Claim C7: deduplication returns a subsequence of its input that keeps,
for every key, exactly the first row carrying that key; in particular the
regularized form of two rows keyed 2020-01-31 with values 100 then 200
retains the value 100. -/
theorem dropDuplicatesFirst_keeps_first :
    (∀ (l : List Row) (k : Date),
      (dropDuplicatesFirst l).Sublist l ∧
      (dropDuplicatesFirst l).filter (fun p => decide (p.1 = k))
        = (l.filter (fun p => decide (p.1 = k))).take 1) ∧
    regularizeSeries [(mkDate 2020 1 31, some (100 : ℚ)), (mkDate 2020 1 31, some (200 : ℚ))]
      = [(mkDate 2019 12 31, some (100 : ℚ))] := by
  constructor
  · intro l k
    refine ⟨dropDupGo_sublist l [], ?_⟩
    have h := dropDupGo_filter l k []
    simpa using h
  · decide

/-- Claim C8: the revenue cleaner removes the literal characters "$" and ","
and parses the remainder as a number, so "$12,345.67" yields 12345.67 and
"1000" yields 1000.0, while residual non-numeric text such as "abc" fails
with NumericParseError. -/
theorem cleanRevenueCell_spec :
    cleanRevenueCell "$12,345.67" = .ok (12345.67 : ℚ) ∧
    cleanRevenueCell "1000" = .ok (1000 : ℚ) ∧
    cleanRevenueCell "abc" = .error "NumericParseError" :=
  ⟨by with_unfolding_all rfl, by with_unfolding_all rfl, by decide⟩

theorem runSession_some {Model : Type} (fit : Unit → Model) (n : Nat) (m : Model) :
    runSession fit n (some m) = (some m, 0, List.replicate n m) := by
  induction n with
  | zero => rfl
  | succ k ih => simp [runSession, ensureModelFitted, ih, List.replicate_succ]

/-- Claim C9: within one session the model is fitted at most once: with a
model already in session state, any number of reruns invokes fit zero times
and every rerun reuses that stored model unchanged; starting from an empty
session state, any positive number of reruns invokes fit exactly once, and
every rerun uses the model produced by that single fit. -/
theorem model_fitted_once_per_session {Model : Type} (fit : Unit → Model)
    (n : Nat) (m : Model) :
    runSession fit n (some m) = (some m, 0, List.replicate n m) ∧
    runSession fit (n + 1) none
      = (some (fit ()), 1, List.replicate (n + 1) (fit ())) := by
  refine ⟨runSession_some fit n m, ?_⟩
  simp [runSession, ensureModelFitted, runSession_some, List.replicate_succ]

/-- Claim C10: because month-end alignment runs before deduplication, two
rows with distinct original dates in the same calendar month collapse to one
entry under the shared adjusted month-end key, and the series keeps the
first row's revenue value; the later row is dropped exactly as a true
duplicate would be. -/
theorem align_then_dedup_collapses (d1 d2 : Date) (v1 v2 : Option ℚ) (rest : List Row)
    (_hne : d1 ≠ d2) (hym : d1.ym = d2.ym) :
    regularizeSeries ((d1, v1) :: (d2, v2) :: rest)
        = regularizeSeries ((d1, v1) :: rest) ∧
    (regularizeSeries ((d1, v1) :: (d2, v2) :: rest)).head?
        = some (monthEndShift d1, v1) := by
  have hshift : monthEndShift d2 = monthEndShift d1 := by
    simp only [monthEndShift, hym]
  have hd1 : (monthEndShift d1) ∉ ([] : List Date) := List.not_mem_nil _
  have hd2 : (monthEndShift d2) ∈ [monthEndShift d1] := by
    rw [hshift]; exact List.mem_singleton_self _
  have hded : dropDupGo [] (alignMonthEnd ((d1, v1) :: (d2, v2) :: rest))
      = dropDupGo [] (alignMonthEnd ((d1, v1) :: rest)) := by
    simp only [alignMonthEnd, List.map_cons]
    rw [dropDupGo, if_neg hd1, dropDupGo, if_pos hd2]
    conv_rhs => rw [dropDupGo, if_neg hd1]
  constructor
  · show ffillGo none (dropDupGo [] (alignMonthEnd ((d1, v1) :: (d2, v2) :: rest))) = _
    rw [hded]
    rfl
  · show (ffillGo none (dropDupGo [] (alignMonthEnd ((d1, v1) :: (d2, v2) :: rest)))).head? = _
    rw [hded]
    simp only [alignMonthEnd, List.map_cons]
    rw [dropDupGo, if_neg hd1]
    cases v1 <;> simp [ffillGo]

/-- Witness for claim C10: two different January 2020 dates collapse to the
single key 2019-12-31 keeping the first value. -/
theorem align_then_dedup_collapses_witness :
    regularizeSeries [(mkDate 2020 1 10, some (100 : ℚ)), (mkDate 2020 1 20, some (200 : ℚ))]
        = regularizeSeries [(mkDate 2020 1 10, some (100 : ℚ))] ∧
    (regularizeSeries [(mkDate 2020 1 10, some (100 : ℚ)),
        (mkDate 2020 1 20, some (200 : ℚ))]).head?
        = some (monthEndShift (mkDate 2020 1 10), some (100 : ℚ)) :=
  align_then_dedup_collapses _ _ _ _ _ (by decide) (by decide)
